import Mathlib

set_option linter.deprecated false

/-!
Shallow embedding of the page-layout fusion engine of `layout.py`:
region consolidation, the degeneracy guard, reading-order reconciliation,
the gap-filling bounding-box expander, table-cell coordinate translation
and the per-page table-decomposition fallback.  Coordinates are integers
(page-pixel coordinates, per the data model of the design document).
-/

namespace AcutisLayout

/-- The closed label set of the pipeline (plus `Unknown` for any other string). -/
inductive Label where
  | Caption
  | Footnote
  | Formula
  | ListItem
  | PageFooter
  | PageHeader
  | Picture
  | Figure
  | SectionHeader
  | Table
  | Text
  | Title
  | Unknown
deriving DecidableEq, Repr

/-- An axis-aligned rectangle `(x1, y1, x2, y2)` in page-pixel coordinates. -/
structure Rect where
  x1 : Int
  y1 : Int
  x2 : Int
  y2 : Int
deriving DecidableEq, Repr

/-- `valueInRange` from layout.py: inclusive interval membership. -/
def valueInRange (value minVal maxVal : Int) : Bool :=
  decide (minVal ≤ value) && decide (value ≤ maxVal)

/-- `rectOverlap` from layout.py: axis-aligned inclusive interval-overlap test
(either left edge inside the other horizontal span, and likewise vertically). -/
def rectOverlap (b1 b2 : Rect) : Bool :=
  (valueInRange b1.x1 b2.x1 b2.x2 || valueInRange b2.x1 b1.x1 b1.x2) &&
  (valueInRange b1.y1 b2.y1 b2.y2 || valueInRange b2.y1 b1.y1 b1.y2)

/-- `full_encapsulation` from layout.py: half-open containment of the
secondary box `s` in the primary box `p` (chained comparisons). -/
def full_encapsulation (p s : Rect) : Bool :=
  decide (p.x1 ≤ s.x1) && decide (s.x1 < s.x2) && decide (s.x2 ≤ p.x2) &&
  decide (p.y1 ≤ s.y1) && decide (s.y1 < s.y2) && decide (s.y2 ≤ p.y2)

/-- A region before ID assignment: rectangle plus label (5-tuple in layout.py). -/
structure Region where
  rect : Rect
  label : Label
deriving DecidableEq, Repr

/-- The sparse labels whose rule in `consolidate_regions` is overlap + height. -/
def structuralLabels : List Label := [.Title, .SectionHeader, .PageHeader, .ListItem]

/-- The sparse labels whose rule in `consolidate_regions` is full encapsulation. -/
def encapsulatingLabels : List Label := [.Table, .Caption, .Footnote, .PageFooter]

/-- The per-pair deletion condition of `consolidate_regions` (layout.py line
123): structural sparse label with rectangle overlap and
`2*|sparse.height| > |layout.height|`, or encapsulating sparse label with
full encapsulation of the layout box. -/
def marksForDeletion (p s : Region) : Bool :=
  (decide (p.label ∈ structuralLabels) && rectOverlap p.rect s.rect &&
     decide ((s.rect.y1 - s.rect.y2).natAbs < 2 * (p.rect.y1 - p.rect.y2).natAbs)) ||
  (decide (p.label ∈ encapsulatingLabels) && full_encapsulation p.rect s.rect)

/-- The index set `to_delete_from_layout`: layout index `j` is marked exactly
when some sparse region triggers the deletion condition against `layout[j]`
(the double loop only ever adds `j`, so membership depends on nothing else). -/
def toDeleteFromLayout (sparse layout : List Region) (j : Nat) : Bool :=
  match layout.get? j with
  | some s => sparse.any fun p => marksForDeletion p s
  | none => false

/-- `consolidate_regions` from layout.py: all sparse regions (the sparse
deletion set is never populated) followed by the layout regions whose index
is not marked for deletion, in their original order. -/
def consolidate_regions (sparse layout : List Region) : List Region :=
  sparse ++
    (layout.enum.filter fun js => !toDeleteFromLayout sparse layout js.1).map Prod.snd

/-- A region after `assign_boxIDs`: rectangle, label and integer box id
(6-tuple in layout.py). -/
structure IdRegion where
  rect : Rect
  label : Label
  boxId : Nat
deriving DecidableEq, Repr

/-- `assign_boxIDs` from layout.py: enumerate and append the index. -/
def assign_boxIDs (rs : List Region) : List IdRegion :=
  rs.enum.map fun ir => ⟨ir.2.rect, ir.2.label, ir.1⟩

/-- The degeneracy guard inlined in `get_layout` (layout.py lines 236-241):
255 or more regions collapse to one synthetic `Text` region with id 0 whose
rectangle is the componentwise min/max bounding box of all regions.  The code
takes Python `min`/`max` over nonempty generators; the list is nonempty
because its length is at least 255, so the `[]` branch is unreachable. -/
def degeneracyGuard (rs : List IdRegion) : List IdRegion :=
  if 255 ≤ rs.length then
    match rs with
    | [] => []
    | r :: rest =>
        [⟨⟨(rest.map fun b => b.rect.x1).foldl min r.rect.x1,
           (rest.map fun b => b.rect.y1).foldl min r.rect.y1,
           (rest.map fun b => b.rect.x2).foldl max r.rect.x2,
           (rest.map fun b => b.rect.y2).foldl max r.rect.y2⟩, .Text, 0⟩]
  else rs

/-- One entry of the external reading-order prediction: rectangle plus
predicted order position. -/
structure OrderBox where
  rect : Rect
  position : Int
deriving DecidableEq, Repr

/-- A region after order reconciliation (7-tuple in layout.py): rectangle,
label, box id and order position. -/
structure Box where
  rect : Rect
  label : Label
  boxId : Nat
  pos : Int
deriving DecidableEq, Repr

/-- The dict comprehension building `coord_to_box_map` (layout.py line 264):
later entries overwrite earlier ones, so a lookup returns the last region
carrying the queried rectangle. -/
def coordToBoxMap (regions : List IdRegion) : Rect → Option IdRegion :=
  regions.foldl (fun m b => fun r => if r = b.rect then some b else m r) fun _ => none

/-- The order-reconciliation step of `get_layout` (layout.py lines 262-275):
look each prediction entry up by exact rectangle equality, stamp hits with the
predicted position, drop misses, then sort by position (`list.sort`,
key = position, a stable sort). -/
def reconcileOrder (regions : List IdRegion) (pred : List OrderBox) : List Box :=
  (pred.filterMap fun ob =>
      (coordToBoxMap regions ob.rect).map fun b =>
        (⟨b.rect, b.label, b.boxId, ob.position⟩ : Box)).mergeSort
    fun a b => decide (a.pos ≤ b.pos)

/-- Translation into table-local coordinates (layout.py line 305: subtract the
table origin from each candidate cell rectangle). -/
def toTableLocal (tx ty : Int) (r : Rect) : Rect :=
  ⟨r.x1 - tx, r.y1 - ty, r.x2 - tx, r.y2 - ty⟩

/-- Translation back to page-absolute coordinates (layout.py lines 317-321:
add the table origin back onto each predicted cell rectangle). -/
def toPageAbsolute (tx ty : Int) (r : Rect) : Rect :=
  ⟨r.x1 + tx, r.y1 + ty, r.x2 + tx, r.y2 + ty⟩

/-- One table cell returned by the table-recognition predictor
(table-local rectangle plus row and column ids). -/
structure Cell where
  rect : Rect
  rowId : Int
  colId : Int
deriving DecidableEq, Repr

/-- The per-table result of the table-recognition predictor. -/
structure TableResult where
  cells : List Cell
deriving DecidableEq, Repr

/-- A final page region: either an ordinary (7-tuple) region or a decomposed
table cell (8-tuple with label `a`, carrying the parent order position via its
filename plus row/column ids). -/
inductive FinalRegion where
  | plain (b : Box)
  | cell (rect : Rect) (pos : Int) (rowId colId : Int)
deriving DecidableEq, Repr

/-- `table_positions` of `get_layout` (layout.py line 307): order position and
rectangle of each Table region, in traversal order. -/
def tablePositions (adjusted : List Box) : List (Int × Rect) :=
  (adjusted.filter fun r => r.label == Label.Table).map fun r => (r.pos, r.rect)

/-- The cell-emission loop on predictor success (layout.py lines 315-323):
for each table result paired with its recorded position/origin, every cell is
translated to page-absolute coordinates and emitted. -/
def emitTableCells (positions : List (Int × Rect)) (results : List TableResult) :
    List FinalRegion :=
  ((results.zip positions).map fun rp =>
    rp.1.cells.map fun c =>
      FinalRegion.cell (toPageAbsolute rp.2.2.x1 rp.2.2.y1 c.rect) rp.2.1
        c.rowId c.colId).join

/-- The per-page table-handling block of `get_layout` (layout.py lines
293-326): non-Table regions pass through in order; when Tables are present the
predictor is consulted, and on failure the original un-decomposed Table
regions are appended instead of any cells. -/
def processTables (adjusted : List Box) (outcome : Except Unit (List TableResult)) :
    List FinalRegion :=
  let finalInit := (adjusted.filter fun r => !(r.label == Label.Table)).map FinalRegion.plain
  if (adjusted.filter fun r => r.label == Label.Table).isEmpty then finalInit
  else
    match outcome with
    | .ok results => finalInit ++ emitTableCells (tablePositions adjusted) results
    | .error _ =>
        finalInit ++ (adjusted.filter fun r => r.label == Label.Table).map FinalRegion.plain

/-- `Picture` and `Figure` regions are frozen by the gap-filling expander. -/
def isFrozen (l : Label) : Bool := l == Label.Picture || l == Label.Figure

/-- The inner neighbor scan of the expander: does `b` (the current box at
index `i`) overlap any box at another index of the current list? -/
def overlapsOther (bs : List Box) (i : Nat) (b : Box) : Bool :=
  (List.range bs.length).any fun j =>
    !(i == j) &&
      (match bs.get? j with
       | some b2 => rectOverlap b.rect b2.rect
       | none => false)

/-- One body execution of the vertical sweep at index `i` (layout.py lines
49-64): a non-frozen box that overlaps no other box grows its top edge 1px
toward `y_max` and its bottom edge 1px toward 0, and the change flag is set
when either edge actually moved. -/
def vStep (yMax : Int) (bs : List Box) (i : Nat) : List Box × Bool :=
  match bs.get? i with
  | none => (bs, false)
  | some b =>
    if isFrozen b.label then (bs, false)
    else if overlapsOther bs i b then (bs, false)
    else if (if b.rect.y2 < yMax then b.rect.y2 + 1 else b.rect.y2) ≠ b.rect.y2 ∨
        (if 0 < b.rect.y1 then b.rect.y1 - 1 else b.rect.y1) ≠ b.rect.y1 then
      (bs.set i ⟨⟨b.rect.x1, if 0 < b.rect.y1 then b.rect.y1 - 1 else b.rect.y1,
          b.rect.x2, if b.rect.y2 < yMax then b.rect.y2 + 1 else b.rect.y2⟩,
        b.label, b.boxId, b.pos⟩, true)
    else (bs, false)

/-- Run the vertical sweep body at indices `i, i+1, ...` for `k` steps,
threading the mutated list and accumulating the `changes_made` flag. -/
def vSweepAux (yMax : Int) : Nat → Nat → List Box → Bool → List Box × Bool
  | 0, _, bs, changed => (bs, changed)
  | k + 1, i, bs, changed =>
      let r := vStep yMax bs i
      vSweepAux yMax k (i + 1) r.1 (changed || r.2)

/-- One full vertical sweep over all indices: one iteration of the first
`while True` loop of `adjust_bounding_boxes_final`. -/
def vSweep (yMax : Int) (bs : List Box) : List Box × Bool :=
  vSweepAux yMax bs.length 0 bs false

/-- Remaining vertical growth capacity of one box: distance of the top edge
below `y_max` plus distance of the bottom edge above 0. -/
def boxVMeasure (yMax : Int) (b : Box) : Nat :=
  (yMax - b.rect.y2).toNat + b.rect.y1.toNat

/-- Remaining vertical growth capacity of a box list.  Every sweep that
reports a change strictly decreases it, which bounds the number of sweeps. -/
def vMeasure (yMax : Int) (bs : List Box) : Nat :=
  (bs.map (boxVMeasure yMax)).sum

/-- The vertical fixed-point loop, fueled.  A changing sweep strictly
decreases `vMeasure`, so `vMeasure + 1` units of fuel always reach a sweep
with no change — the exit condition of the `while True` loop — making this
equal to the unbounded loop of the source (see `vSweep_vLoop`). -/
def vLoopFuel (yMax : Int) : Nat → List Box → List Box
  | 0, bs => bs
  | fuel + 1, bs =>
      let r := vSweep yMax bs
      if r.2 then vLoopFuel yMax fuel r.1 else r.1

/-- The first `while True` loop of `adjust_bounding_boxes_final`. -/
def vLoop (yMax : Int) (bs : List Box) : List Box :=
  vLoopFuel yMax (vMeasure yMax bs + 1) bs

/-- One body execution of the horizontal sweep at index `i` (layout.py lines
70-84): a non-frozen box that overlaps no other box grows its left edge 1px
toward 0 and its right edge 1px toward `x_max`. -/
def hStep (xMax : Int) (bs : List Box) (i : Nat) : List Box × Bool :=
  match bs.get? i with
  | none => (bs, false)
  | some b =>
    if isFrozen b.label then (bs, false)
    else if overlapsOther bs i b then (bs, false)
    else if (if 0 < b.rect.x1 then b.rect.x1 - 1 else b.rect.x1) ≠ b.rect.x1 ∨
        (if b.rect.x2 < xMax then b.rect.x2 + 1 else b.rect.x2) ≠ b.rect.x2 then
      (bs.set i ⟨⟨if 0 < b.rect.x1 then b.rect.x1 - 1 else b.rect.x1, b.rect.y1,
          if b.rect.x2 < xMax then b.rect.x2 + 1 else b.rect.x2, b.rect.y2⟩,
        b.label, b.boxId, b.pos⟩, true)
    else (bs, false)

/-- Run the horizontal sweep body at indices `i, i+1, ...` for `k` steps. -/
def hSweepAux (xMax : Int) : Nat → Nat → List Box → Bool → List Box × Bool
  | 0, _, bs, changed => (bs, changed)
  | k + 1, i, bs, changed =>
      let r := hStep xMax bs i
      hSweepAux xMax k (i + 1) r.1 (changed || r.2)

/-- One full horizontal sweep over all indices: one iteration of the second
`while True` loop of `adjust_bounding_boxes_final`. -/
def hSweep (xMax : Int) (bs : List Box) : List Box × Bool :=
  hSweepAux xMax bs.length 0 bs false

/-- Remaining horizontal growth capacity of one box. -/
def boxHMeasure (xMax : Int) (b : Box) : Nat :=
  (xMax - b.rect.x2).toNat + b.rect.x1.toNat

/-- Remaining horizontal growth capacity of a box list. -/
def hMeasure (xMax : Int) (bs : List Box) : Nat :=
  (bs.map (boxHMeasure xMax)).sum

/-- The horizontal fixed-point loop, fueled exactly like `vLoopFuel`. -/
def hLoopFuel (xMax : Int) : Nat → List Box → List Box
  | 0, bs => bs
  | fuel + 1, bs =>
      let r := hSweep xMax bs
      if r.2 then hLoopFuel xMax fuel r.1 else r.1

/-- The second `while True` loop of `adjust_bounding_boxes_final`. -/
def hLoop (xMax : Int) (bs : List Box) : List Box :=
  hLoopFuel xMax (hMeasure xMax bs + 1) bs

/-- The merge step (layout.py lines 88-96): Y-extent from the vertical result,
X-extent from the horizontal result, label/id/position from the vertical
result; frozen boxes keep the vertical copy wholesale. -/
def mergeBox (bv bh : Box) : Box :=
  if isFrozen bv.label then bv
  else ⟨⟨bh.rect.x1, bv.rect.y1, bh.rect.x2, bv.rect.y2⟩, bv.label, bv.boxId, bv.pos⟩

/-- `adjust_bounding_boxes_final` from layout.py: the gap-filling expander.
`xMax` and `yMax` are entries 2 and 3 of the page bounding box `[0,0,w,h]`
(the only entries the source reads). -/
def adjust_bounding_boxes_final (boxes : List Box) (xMax yMax : Int) : List Box :=
  List.zipWith mergeBox (vLoop yMax boxes) (hLoop xMax boxes)

/-- Fieldwise relation established by the vertical pass: x-extent, label, id
and position unchanged, y-extent only widened, frozen boxes fully unchanged. -/
structure vGrows (b b' : Box) : Prop where
  hx1 : b'.rect.x1 = b.rect.x1
  hx2 : b'.rect.x2 = b.rect.x2
  hlab : b'.label = b.label
  hid : b'.boxId = b.boxId
  hpos : b'.pos = b.pos
  hy1 : b'.rect.y1 ≤ b.rect.y1
  hy2 : b.rect.y2 ≤ b'.rect.y2
  hfro : isFrozen b.label = true → b' = b

/-- Fieldwise relation established by the horizontal pass. -/
structure hGrows (b b' : Box) : Prop where
  hy1 : b'.rect.y1 = b.rect.y1
  hy2 : b'.rect.y2 = b.rect.y2
  hlab : b'.label = b.label
  hid : b'.boxId = b.boxId
  hpos : b'.pos = b.pos
  hx1 : b'.rect.x1 ≤ b.rect.x1
  hx2 : b.rect.x2 ≤ b'.rect.x2
  hfro : isFrozen b.label = true → b' = b

/-- The box at index `i` cannot grow vertically: frozen, overlapping another
box of the current list, or already at both vertical page bounds. -/
def noGrowV (yMax : Int) (bs : List Box) (i : Nat) : Prop :=
  ∀ b, bs.get? i = some b →
    isFrozen b.label = true ∨ overlapsOther bs i b = true ∨
      (yMax ≤ b.rect.y2 ∧ b.rect.y1 ≤ 0)

/-- The box at index `i` cannot grow horizontally. -/
def noGrowH (xMax : Int) (bs : List Box) (i : Nat) : Prop :=
  ∀ b, bs.get? i = some b →
    isFrozen b.label = true ∨ overlapsOther bs i b = true ∨
      (xMax ≤ b.rect.x2 ∧ b.rect.x1 ≤ 0)

/-- A box lies within the page bounding box `[0, 0, xMax, yMax]`. -/
def inBounds (xMax yMax : Int) (b : Box) : Prop :=
  0 ≤ b.rect.x1 ∧ b.rect.x2 ≤ xMax ∧ 0 ≤ b.rect.y1 ∧ b.rect.y2 ≤ yMax

/-- The data-model rectangle invariant (non-inverted extents). -/
def properRect (r : Rect) : Prop := r.x1 ≤ r.x2 ∧ r.y1 ≤ r.y2

/-- `r` is contained in `R` componentwise. -/
def subRect (r R : Rect) : Prop :=
  R.x1 ≤ r.x1 ∧ r.x2 ≤ R.x2 ∧ R.y1 ≤ r.y1 ∧ r.y2 ≤ R.y2

instance (r : Rect) : Decidable (properRect r) := by
  unfold properRect
  infer_instance

instance (xMax yMax : Int) (b : Box) : Decidable (inBounds xMax yMax b) := by
  unfold inBounds
  infer_instance

/-! ### Fold lemmas for the degeneracy guard's min/max bounding box -/

theorem foldl_min_spec (l : List Int) (a : Int) :
    l.foldl min a ≤ a ∧ (∀ x ∈ l, l.foldl min a ≤ x) ∧
      (l.foldl min a = a ∨ l.foldl min a ∈ l) := by
  induction l generalizing a with
  | nil => simp
  | cons x xs ih =>
    obtain ⟨h1, h2, h3⟩ := ih (min a x)
    refine ⟨le_trans h1 (min_le_left a x), ?_, ?_⟩
    · intro y hy
      rcases List.mem_cons.1 hy with rfl | hy
      · exact le_trans h1 (min_le_right a y)
      · exact h2 y hy
    · rcases h3 with h | h
      · rcases le_total a x with hax | hax
        · left
          rw [List.foldl_cons, h, min_eq_left hax]
        · right
          rw [List.foldl_cons, h, min_eq_right hax]
          exact List.mem_cons_self x xs
      · exact Or.inr (List.mem_cons_of_mem x h)

theorem foldl_max_spec (l : List Int) (a : Int) :
    a ≤ l.foldl max a ∧ (∀ x ∈ l, x ≤ l.foldl max a) ∧
      (l.foldl max a = a ∨ l.foldl max a ∈ l) := by
  induction l generalizing a with
  | nil => simp
  | cons x xs ih =>
    obtain ⟨h1, h2, h3⟩ := ih (max a x)
    refine ⟨le_trans (le_max_left a x) h1, ?_, ?_⟩
    · intro y hy
      rcases List.mem_cons.1 hy with rfl | hy
      · exact le_trans (le_max_right a y) h1
      · exact h2 y hy
    · rcases h3 with h | h
      · rcases le_total a x with hax | hax
        · right
          rw [List.foldl_cons, h, max_eq_right hax]
          exact List.mem_cons_self x xs
        · left
          rw [List.foldl_cons, h, max_eq_left hax]
      · exact Or.inr (List.mem_cons_of_mem x h)

/-- C8: Table coordinate translation round-trips exactly: subtracting the table
origin and then adding it back yields the original rectangle. -/
theorem table_coordinate_roundtrip (tx ty : Int) (r : Rect) :
    toPageAbsolute tx ty (toTableLocal tx ty r) = r := by
  cases r
  simp [toTableLocal, toPageAbsolute]

/-- C3: `consolidate_regions` returns all sparse regions followed, in order, by
exactly those layout regions for which no sparse region triggers the deletion
condition (structural label + overlap + height rule, or encapsulating label +
half-open full containment). -/
theorem consolidate_regions_spec (sparse layout : List Region) :
    consolidate_regions sparse layout =
      sparse ++ layout.filter fun s => !(sparse.any fun p => marksForDeletion p s) := by
  unfold consolidate_regions
  congr 1
  conv_rhs => rw [← List.enum_map_snd layout, List.filter_map]
  congr 1
  refine List.filter_congr ?_
  intro js hjs
  have hget := List.mem_enum_iff_get?.1 hjs
  rw [List.get?_eq_getElem?] at hget
  simp [toDeleteFromLayout, hget, Function.comp]

/-- C4: the degeneracy guard leaves lists of fewer than 255 regions unchanged
and collapses lists of 255 or more regions to a single region labeled `Text`
with id 0 whose rectangle is the min/max bounding box of all regions. -/
theorem degeneracy_guard_spec (rs : List IdRegion) :
    (rs.length < 255 → degeneracyGuard rs = rs) ∧
    (255 ≤ rs.length →
      ∃ g : IdRegion, degeneracyGuard rs = [g] ∧ g.label = Label.Text ∧ g.boxId = 0 ∧
        (∀ r ∈ rs, g.rect.x1 ≤ r.rect.x1 ∧ g.rect.y1 ≤ r.rect.y1 ∧
          r.rect.x2 ≤ g.rect.x2 ∧ r.rect.y2 ≤ g.rect.y2) ∧
        (∃ r ∈ rs, g.rect.x1 = r.rect.x1) ∧ (∃ r ∈ rs, g.rect.y1 = r.rect.y1) ∧
        (∃ r ∈ rs, g.rect.x2 = r.rect.x2) ∧ (∃ r ∈ rs, g.rect.y2 = r.rect.y2)) := by
  constructor
  · intro hlt
    unfold degeneracyGuard
    rw [if_neg (by omega)]
  · intro hge
    match rs with
    | [] => simp at hge
    | r :: rest =>
      refine ⟨⟨⟨(rest.map fun b => b.rect.x1).foldl min r.rect.x1,
           (rest.map fun b => b.rect.y1).foldl min r.rect.y1,
           (rest.map fun b => b.rect.x2).foldl max r.rect.x2,
           (rest.map fun b => b.rect.y2).foldl max r.rect.y2⟩, .Text, 0⟩,
         ?_, rfl, rfl, ?_, ?_, ?_, ?_, ?_⟩
      · unfold degeneracyGuard
        rw [if_pos hge]
      · intro r' hr'
        rcases List.mem_cons.1 hr' with rfl | hr'
        · exact ⟨(foldl_min_spec _ _).1, (foldl_min_spec _ _).1,
            (foldl_max_spec _ _).1, (foldl_max_spec _ _).1⟩
        · exact ⟨(foldl_min_spec _ _).2.1 _ (List.mem_map_of_mem _ hr'),
            (foldl_min_spec _ _).2.1 _ (List.mem_map_of_mem _ hr'),
            (foldl_max_spec _ _).2.1 _ (List.mem_map_of_mem _ hr'),
            (foldl_max_spec _ _).2.1 _ (List.mem_map_of_mem _ hr')⟩
      · rcases (foldl_min_spec (rest.map fun b => b.rect.x1) r.rect.x1).2.2 with h | h
        · exact ⟨r, List.mem_cons_self r rest, h⟩
        · obtain ⟨r', hr', hval⟩ := List.mem_map.1 h
          exact ⟨r', List.mem_cons_of_mem r hr', hval.symm⟩
      · rcases (foldl_min_spec (rest.map fun b => b.rect.y1) r.rect.y1).2.2 with h | h
        · exact ⟨r, List.mem_cons_self r rest, h⟩
        · obtain ⟨r', hr', hval⟩ := List.mem_map.1 h
          exact ⟨r', List.mem_cons_of_mem r hr', hval.symm⟩
      · rcases (foldl_max_spec (rest.map fun b => b.rect.x2) r.rect.x2).2.2 with h | h
        · exact ⟨r, List.mem_cons_self r rest, h⟩
        · obtain ⟨r', hr', hval⟩ := List.mem_map.1 h
          exact ⟨r', List.mem_cons_of_mem r hr', hval.symm⟩
      · rcases (foldl_max_spec (rest.map fun b => b.rect.y2) r.rect.y2).2.2 with h | h
        · exact ⟨r, List.mem_cons_self r rest, h⟩
        · obtain ⟨r', hr', hval⟩ := List.mem_map.1 h
          exact ⟨r', List.mem_cons_of_mem r hr', hval.symm⟩

/-- C4 witness: a 255-element list collapses; a 254-element list is unchanged. -/
theorem degeneracy_guard_spec_witness :
    (degeneracyGuard (List.replicate 254 (⟨⟨3, 4, 5, 6⟩, Label.Title, 7⟩ : IdRegion)) =
      List.replicate 254 (⟨⟨3, 4, 5, 6⟩, Label.Title, 7⟩ : IdRegion)) ∧
    (∃ g : IdRegion,
      degeneracyGuard (List.replicate 255 (⟨⟨3, 4, 5, 6⟩, Label.Title, 7⟩ : IdRegion)) = [g] ∧
      g.label = Label.Text ∧ g.boxId = 0 ∧
      (∀ r ∈ List.replicate 255 (⟨⟨3, 4, 5, 6⟩, Label.Title, 7⟩ : IdRegion),
        g.rect.x1 ≤ r.rect.x1 ∧ g.rect.y1 ≤ r.rect.y1 ∧
          r.rect.x2 ≤ g.rect.x2 ∧ r.rect.y2 ≤ g.rect.y2) ∧
      (∃ r ∈ List.replicate 255 (⟨⟨3, 4, 5, 6⟩, Label.Title, 7⟩ : IdRegion),
        g.rect.x1 = r.rect.x1) ∧
      (∃ r ∈ List.replicate 255 (⟨⟨3, 4, 5, 6⟩, Label.Title, 7⟩ : IdRegion),
        g.rect.y1 = r.rect.y1) ∧
      (∃ r ∈ List.replicate 255 (⟨⟨3, 4, 5, 6⟩, Label.Title, 7⟩ : IdRegion),
        g.rect.x2 = r.rect.x2) ∧
      (∃ r ∈ List.replicate 255 (⟨⟨3, 4, 5, 6⟩, Label.Title, 7⟩ : IdRegion),
        g.rect.y2 = r.rect.y2)) :=
  ⟨(degeneracy_guard_spec _).1 (by rw [List.length_replicate]; omega),
   (degeneracy_guard_spec _).2 (by rw [List.length_replicate])⟩

theorem coordToBoxMap_append (regions : List IdRegion) (b : IdRegion) (r : Rect) :
    coordToBoxMap (regions ++ [b]) r =
      if r = b.rect then some b else coordToBoxMap regions r := by
  unfold coordToBoxMap
  rw [List.foldl_append]
  rfl

/-- The dict built by the comprehension answers queries with the last region
carrying the queried rectangle. -/
theorem coordToBoxMap_eq_find (regions : List IdRegion) (r : Rect) :
    coordToBoxMap regions r = regions.reverse.find? fun b => decide (b.rect = r) := by
  induction regions using List.reverseRecOn with
  | nil => rfl
  | append_singleton rs b ih =>
    rw [coordToBoxMap_append, List.reverse_append]
    simp only [List.reverse_singleton, List.singleton_append]
    by_cases h : b.rect = r
    · rw [if_pos h.symm, List.find?_cons_of_pos _ (by simp [h])]
    · rw [if_neg (fun hh => h hh.symm), List.find?_cons_of_neg _ (by simp [h]), ih]

/-- C5: the order reconciler emits exactly the (prediction entry, region) pairs
whose rectangles match by exact coordinate equality (the region being the last
one in the list with that rectangle, per Python dict semantics), each stamped
with the prediction's order position, and the result is sorted by order
position ascending.  Prediction entries with no match contribute nothing. -/
theorem order_reconciler_spec (regions : List IdRegion) (pred : List OrderBox) :
    (reconcileOrder regions pred).Perm
      (pred.filterMap fun ob =>
        (regions.reverse.find? fun b => decide (b.rect = ob.rect)).map fun b =>
          (⟨b.rect, b.label, b.boxId, ob.position⟩ : Box)) ∧
    List.Pairwise (fun a b : Box => a.pos ≤ b.pos) (reconcileOrder regions pred) := by
  have hfun : (fun ob : OrderBox =>
      (coordToBoxMap regions ob.rect).map fun b =>
        (⟨b.rect, b.label, b.boxId, ob.position⟩ : Box)) =
      (fun ob : OrderBox =>
        (regions.reverse.find? fun b => decide (b.rect = ob.rect)).map fun b =>
          (⟨b.rect, b.label, b.boxId, ob.position⟩ : Box)) :=
    funext fun ob => by rw [coordToBoxMap_eq_find]
  constructor
  · unfold reconcileOrder
    rw [hfun]
    exact List.mergeSort_perm _ _
  · unfold reconcileOrder
    have htrans : ∀ a b c : Box, decide (a.pos ≤ b.pos) = true →
        decide (b.pos ≤ c.pos) = true → decide (a.pos ≤ c.pos) = true := by
      intro a b c hab hbc
      simp only [decide_eq_true_eq] at hab hbc ⊢
      exact le_trans hab hbc
    have htotal : ∀ a b : Box,
        (decide (a.pos ≤ b.pos) || decide (b.pos ≤ a.pos)) = true := by
      intro a b
      rcases le_total a.pos b.pos with h | h <;> simp [h]
    have hs := List.sorted_mergeSort htrans htotal
      (pred.filterMap fun ob =>
        (coordToBoxMap regions ob.rect).map fun b =>
          (⟨b.rect, b.label, b.boxId, ob.position⟩ : Box))
    exact hs.imp fun h => by simpa using h

/-- C9: when the table-recognition predictor fails, the page output is the
non-Table regions followed by every original Table region, unchanged, and no
decomposed cell region is emitted. -/
theorem table_failure_fallback (adjusted : List Box) (e : Unit) :
    processTables adjusted (.error e) =
      ((adjusted.filter fun r => !(r.label == Label.Table)).map FinalRegion.plain) ++
        ((adjusted.filter fun r => r.label == Label.Table).map FinalRegion.plain) ∧
    (∀ b ∈ adjusted, b.label = Label.Table →
      FinalRegion.plain b ∈ processTables adjusted (.error e)) ∧
    (∀ fr ∈ processTables adjusted (.error e),
      ∀ r p ri ci, fr ≠ FinalRegion.cell r p ri ci) := by
  have heq : processTables adjusted (.error e) =
      ((adjusted.filter fun r => !(r.label == Label.Table)).map FinalRegion.plain) ++
        ((adjusted.filter fun r => r.label == Label.Table).map FinalRegion.plain) := by
    unfold processTables
    by_cases hemp : (adjusted.filter fun r => r.label == Label.Table).isEmpty
    · simp only [hemp, if_true]
      rw [List.isEmpty_iff.1 hemp]
      simp
    · simp [hemp]
  refine ⟨heq, ?_, ?_⟩
  · intro b hb hlbl
    rw [heq]
    refine List.mem_append_right _ (List.mem_map_of_mem _ ?_)
    rw [List.mem_filter]
    exact ⟨hb, by simp [hlbl]⟩
  · intro fr hfr r p ri ci
    rw [heq] at hfr
    rcases List.mem_append.1 hfr with h | h <;>
      · obtain ⟨b, _, hb⟩ := List.mem_map.1 h
        rw [← hb]
        intro hcontra
        exact FinalRegion.noConfusion hcontra

/-- C9 witness: one page with a Table and a Text region, predictor failing. -/
theorem table_failure_fallback_witness :
    FinalRegion.plain (⟨⟨1, 1, 4, 4⟩, Label.Table, 0, 0⟩ : Box) ∈
      processTables
        [⟨⟨1, 1, 4, 4⟩, Label.Table, 0, 0⟩, ⟨⟨5, 5, 9, 9⟩, Label.Text, 1, 1⟩]
        (.error ()) :=
  (table_failure_fallback
      [⟨⟨1, 1, 4, 4⟩, Label.Table, 0, 0⟩, ⟨⟨5, 5, 9, 9⟩, Label.Text, 1, 1⟩] ()).2.1
    ⟨⟨1, 1, 4, 4⟩, Label.Table, 0, 0⟩ (by simp) rfl

/-! ### Generic list lemmas -/

theorem get?_zipWith {α β γ : Type} (f : α → β → γ) :
    ∀ (l1 : List α) (l2 : List β) (i : Nat) (a : α) (b : β),
      l1.get? i = some a → l2.get? i = some b →
      (List.zipWith f l1 l2).get? i = some (f a b) := by
  intro l1
  induction l1 with
  | nil => intro l2 i a b h1; simp at h1
  | cons x xs ih =>
    intro l2 i a b h1 h2
    cases l2 with
    | nil => simp at h2
    | cons y ys =>
      cases i with
      | zero =>
        injection h1 with h1
        injection h2 with h2
        subst h1; subst h2
        rfl
      | succ n => exact ih ys n a b h1 h2

theorem forall₂_trans_of {α : Type} (R : α → α → Prop)
    (htrans : ∀ a b c, R a b → R b c → R a c) :
    ∀ {l1 l2 l3 : List α}, List.Forall₂ R l1 l2 → List.Forall₂ R l2 l3 →
      List.Forall₂ R l1 l3 := by
  intro l1 l2 l3 h12
  induction h12 generalizing l3 with
  | nil => intro h23; cases h23; exact List.Forall₂.nil
  | cons hab h ih =>
    intro h23
    cases h23 with
    | cons hbc h23t => exact List.Forall₂.cons (htrans _ _ _ hab hbc) (ih h23t)

theorem forall₂_set_of_refl {α : Type} {R : α → α → Prop} (hrefl : ∀ a, R a a) :
    ∀ (l : List α) (i : Nat) {a b : α}, l.get? i = some a → R a b →
      List.Forall₂ R l (l.set i b) := by
  intro l
  induction l with
  | nil => intro i a b h; simp at h
  | cons x xs ih =>
    intro i a b h hR
    cases i with
    | zero =>
      injection h with h
      subst h
      exact List.Forall₂.cons hR (List.forall₂_same.2 fun y _ => hrefl y)
    | succ n => exact List.Forall₂.cons (hrefl x) (ih n h hR)

theorem forall₂_get?_left {α β : Type} {R : α → β → Prop} :
    ∀ {l1 : List α} {l2 : List β}, List.Forall₂ R l1 l2 →
      ∀ {i : Nat} {a : α}, l1.get? i = some a →
        ∃ b, l2.get? i = some b ∧ R a b := by
  intro l1 l2 h
  induction h with
  | nil => intro i a hget; simp at hget
  | cons hab ht ih =>
    intro i a hget
    cases i with
    | zero =>
      injection hget with hget
      subst hget
      exact ⟨_, rfl, hab⟩
    | succ n => exact ih hget

theorem forall₂_get?_right {α β : Type} {R : α → β → Prop} :
    ∀ {l1 : List α} {l2 : List β}, List.Forall₂ R l1 l2 →
      ∀ {i : Nat} {b : β}, l2.get? i = some b →
        ∃ a, l1.get? i = some a ∧ R a b := by
  intro l1 l2 h
  induction h with
  | nil => intro i b hget; simp at hget
  | cons hab ht ih =>
    intro i b hget
    cases i with
    | zero =>
      injection hget with hget
      subst hget
      exact ⟨_, rfl, hab⟩
    | succ n => exact ih hget

theorem get?_some_of_lt {α : Type} (l : List α) (i : Nat) (h : i < l.length) :
    ∃ a, l.get? i = some a := by
  cases hg : l.get? i with
  | none =>
    have := List.get?_eq_none.1 hg
    omega
  | some a => exact ⟨a, rfl⟩

/-! ### Vertical pass lemmas -/

theorem vGrows_refl (b : Box) : vGrows b b :=
  ⟨rfl, rfl, rfl, rfl, rfl, le_refl _, le_refl _, fun _ => rfl⟩

theorem vGrows_trans {a b c : Box} (h1 : vGrows a b) (h2 : vGrows b c) : vGrows a c := by
  refine ⟨h2.hx1.trans h1.hx1, h2.hx2.trans h1.hx2, h2.hlab.trans h1.hlab,
    h2.hid.trans h1.hid, h2.hpos.trans h1.hpos, le_trans h2.hy1 h1.hy1,
    le_trans h1.hy2 h2.hy2, ?_⟩
  intro hfr
  have hb : b = a := h1.hfro hfr
  have hfr2 : isFrozen b.label = true := by rw [h1.hlab]; exact hfr
  rw [h2.hfro hfr2, hb]

theorem forall₂_vGrows_trans {l1 l2 l3 : List Box} (h12 : List.Forall₂ vGrows l1 l2)
    (h23 : List.Forall₂ vGrows l2 l3) : List.Forall₂ vGrows l1 l3 :=
  forall₂_trans_of vGrows (fun _ _ _ ha hb => vGrows_trans ha hb) h12 h23

theorem vStep_cases (yMax : Int) (bs : List Box) (i : Nat) :
    (vStep yMax bs i = (bs, false) ∧ noGrowV yMax bs i) ∨
    (∃ b, bs.get? i = some b ∧ isFrozen b.label = false ∧
      overlapsOther bs i b = false ∧
      (b.rect.y2 < yMax ∨ 0 < b.rect.y1) ∧
      vStep yMax bs i =
        (bs.set i ⟨⟨b.rect.x1, if 0 < b.rect.y1 then b.rect.y1 - 1 else b.rect.y1,
            b.rect.x2, if b.rect.y2 < yMax then b.rect.y2 + 1 else b.rect.y2⟩,
          b.label, b.boxId, b.pos⟩, true)) := by
  cases hget : bs.get? i with
  | none =>
    left
    constructor
    · unfold vStep
      rw [hget]
    · intro b hb
      rw [hget] at hb
      cases hb
  | some b =>
    have hv : vStep yMax bs i =
        (if isFrozen b.label then (bs, false)
         else if overlapsOther bs i b then (bs, false)
         else if (if b.rect.y2 < yMax then b.rect.y2 + 1 else b.rect.y2) ≠ b.rect.y2 ∨
             (if 0 < b.rect.y1 then b.rect.y1 - 1 else b.rect.y1) ≠ b.rect.y1 then
           (bs.set i ⟨⟨b.rect.x1, if 0 < b.rect.y1 then b.rect.y1 - 1 else b.rect.y1,
               b.rect.x2, if b.rect.y2 < yMax then b.rect.y2 + 1 else b.rect.y2⟩,
             b.label, b.boxId, b.pos⟩, true)
         else (bs, false)) := by
      unfold vStep
      rw [hget]
    by_cases hf : isFrozen b.label = true
    · left
      rw [hv, if_pos hf]
      refine ⟨rfl, ?_⟩
      intro b' hb'
      rw [hget] at hb'
      injection hb' with hb'
      subst hb'
      exact Or.inl hf
    · have hf' : isFrozen b.label = false := by
        cases h : isFrozen b.label
        · rfl
        · exact absurd h hf
      by_cases ho : overlapsOther bs i b = true
      · left
        rw [hv, if_neg (by rw [hf']; exact Bool.false_ne_true)]
        rw [if_pos ho]
        refine ⟨rfl, ?_⟩
        intro b' hb'
        rw [hget] at hb'
        injection hb' with hb'
        subst hb'
        exact Or.inr (Or.inl ho)
      · have ho' : overlapsOther bs i b = false := by
          cases h : overlapsOther bs i b
          · rfl
          · exact absurd h ho
        by_cases hch : (if b.rect.y2 < yMax then b.rect.y2 + 1 else b.rect.y2) ≠ b.rect.y2 ∨
            (if 0 < b.rect.y1 then b.rect.y1 - 1 else b.rect.y1) ≠ b.rect.y1
        · right
          refine ⟨b, rfl, hf', ho', ?_, ?_⟩
          · by_cases h1 : b.rect.y2 < yMax
            · exact Or.inl h1
            · by_cases h2 : 0 < b.rect.y1
              · exact Or.inr h2
              · exfalso
                rcases hch with h | h
                · rw [if_neg h1] at h
                  exact h rfl
                · rw [if_neg h2] at h
                  exact h rfl
          · rw [hv, if_neg (by rw [hf']; exact Bool.false_ne_true)]
            rw [if_neg (by rw [ho']; exact Bool.false_ne_true)]
            rw [if_pos hch]
        · left
          rw [hv, if_neg (by rw [hf']; exact Bool.false_ne_true)]
          rw [if_neg (by rw [ho']; exact Bool.false_ne_true)]
          rw [if_neg hch]
          refine ⟨rfl, ?_⟩
          intro b' hb'
          rw [hget] at hb'
          injection hb' with hb'
          subst hb'
          right; right
          push_neg at hch
          obtain ⟨h1, h2⟩ := hch
          constructor
          · by_contra hcon
            rw [if_pos (by omega)] at h1
            omega
          · by_contra hcon
            rw [if_pos (by omega)] at h2
            omega

theorem vStep_grows (yMax : Int) (bs : List Box) (i : Nat) :
    List.Forall₂ vGrows bs (vStep yMax bs i).1 := by
  rcases vStep_cases yMax bs i with ⟨heq, _⟩ | ⟨b, hget, hf, _, _, heq⟩
  · rw [heq]
    exact List.forall₂_same.2 fun b _ => vGrows_refl b
  · rw [heq]
    refine forall₂_set_of_refl vGrows_refl bs i hget
      ⟨rfl, rfl, rfl, rfl, rfl, ?_, ?_, ?_⟩
    · dsimp only
      split <;> omega
    · dsimp only
      split <;> omega
    · intro hfr
      rw [hfr] at hf
      cases hf

theorem vMeasure_set (yMax : Int) :
    ∀ (bs : List Box) (i : Nat) (b b' : Box), bs.get? i = some b →
      vMeasure yMax (bs.set i b') + boxVMeasure yMax b =
        vMeasure yMax bs + boxVMeasure yMax b' := by
  intro bs
  induction bs with
  | nil => intro i b b' h; simp at h
  | cons x xs ih =>
    intro i b b' h
    cases i with
    | zero =>
      injection h with h
      subst h
      simp [vMeasure]
      omega
    | succ n =>
      have hrec := ih n b b' h
      simp only [List.set, vMeasure, List.map_cons, List.sum_cons] at hrec ⊢
      omega

theorem vStep_measure (yMax : Int) (bs : List Box) (i : Nat) :
    vMeasure yMax (vStep yMax bs i).1 ≤ vMeasure yMax bs ∧
    ((vStep yMax bs i).2 = true →
      vMeasure yMax (vStep yMax bs i).1 < vMeasure yMax bs) ∧
    ((vStep yMax bs i).2 = false → (vStep yMax bs i).1 = bs) := by
  rcases vStep_cases yMax bs i with ⟨heq, _⟩ | ⟨b, hget, _, _, hcan, heq⟩
  · rw [heq]
    exact ⟨le_refl _, fun hc => Bool.noConfusion hc, fun _ => rfl⟩
  · rw [heq]
    dsimp only
    have hm := vMeasure_set yMax bs i b
      ⟨⟨b.rect.x1, if 0 < b.rect.y1 then b.rect.y1 - 1 else b.rect.y1,
          b.rect.x2, if b.rect.y2 < yMax then b.rect.y2 + 1 else b.rect.y2⟩,
        b.label, b.boxId, b.pos⟩ hget
    have hlt : boxVMeasure yMax
        ⟨⟨b.rect.x1, if 0 < b.rect.y1 then b.rect.y1 - 1 else b.rect.y1,
            b.rect.x2, if b.rect.y2 < yMax then b.rect.y2 + 1 else b.rect.y2⟩,
          b.label, b.boxId, b.pos⟩ < boxVMeasure yMax b := by
      unfold boxVMeasure
      dsimp only
      rcases hcan with h | h
      · rw [if_pos h]
        split <;> omega
      · rw [if_pos h]
        split <;> omega
    exact ⟨by omega, fun _ => by omega, fun hfalse => Bool.noConfusion hfalse⟩

theorem vSweepAux_true (yMax : Int) :
    ∀ (k i : Nat) (bs : List Box), (vSweepAux yMax k i bs true).2 = true := by
  intro k
  induction k with
  | zero => intro i bs; rfl
  | succ n ih =>
    intro i bs
    simp only [vSweepAux, Bool.true_or]
    exact ih (i + 1) (vStep yMax bs i).1

theorem vSweepAux_spec (yMax : Int) :
    ∀ (k i : Nat) (bs : List Box) (ch : Bool),
      List.Forall₂ vGrows bs (vSweepAux yMax k i bs ch).1 ∧
      vMeasure yMax (vSweepAux yMax k i bs ch).1 ≤ vMeasure yMax bs ∧
      ((vSweepAux yMax k i bs ch).2 = false →
        (vSweepAux yMax k i bs ch).1 = bs ∧ ch = false) ∧
      (ch = false → (vSweepAux yMax k i bs ch).2 = true →
        vMeasure yMax (vSweepAux yMax k i bs ch).1 < vMeasure yMax bs) := by
  intro k
  induction k with
  | zero =>
    intro i bs ch
    refine ⟨List.forall₂_same.2 fun b _ => vGrows_refl b, le_refl _,
      fun h => ⟨rfl, h⟩, ?_⟩
    intro hch hres
    rw [hch] at hres
    cases hres
  | succ n ih =>
    intro i bs ch
    have hstep := vStep_measure yMax bs i
    have hgrow := vStep_grows yMax bs i
    have hrec := ih (i + 1) (vStep yMax bs i).1 (ch || (vStep yMax bs i).2)
    have hunf : vSweepAux yMax (n + 1) i bs ch =
        vSweepAux yMax n (i + 1) (vStep yMax bs i).1 (ch || (vStep yMax bs i).2) := rfl
    rw [hunf]
    refine ⟨forall₂_vGrows_trans hgrow hrec.1,
      le_trans hrec.2.1 hstep.1, ?_, ?_⟩
    · intro hfalse
      obtain ⟨heq, hor⟩ := hrec.2.2.1 hfalse
      have hch : ch = false := by
        cases ch
        · rfl
        · rw [Bool.true_or] at hor; cases hor
      have hr2 : (vStep yMax bs i).2 = false := by
        cases hsnd : (vStep yMax bs i).2
        · rfl
        · rw [hch, hsnd, Bool.false_or] at hor; cases hor
      rw [heq, hstep.2.2 hr2]
      exact ⟨rfl, hch⟩
    · intro hch htrue
      subst hch
      rcases Bool.eq_false_or_eq_true ((vStep yMax bs i).2) with hr2 | hr2
      · exact lt_of_le_of_lt hrec.2.1 (hstep.2.1 hr2)
      · have heq1 := hstep.2.2 hr2
        rw [hr2, heq1] at htrue ⊢
        exact (ih (i + 1) bs false).2.2.2 rfl htrue

theorem vSweep_spec (yMax : Int) (bs : List Box) :
    List.Forall₂ vGrows bs (vSweep yMax bs).1 ∧
    vMeasure yMax (vSweep yMax bs).1 ≤ vMeasure yMax bs ∧
    ((vSweep yMax bs).2 = false → (vSweep yMax bs).1 = bs) ∧
    ((vSweep yMax bs).2 = true →
      vMeasure yMax (vSweep yMax bs).1 < vMeasure yMax bs) := by
  have h := vSweepAux_spec yMax bs.length 0 bs false
  exact ⟨h.1, h.2.1, fun hf => (h.2.2.1 hf).1, h.2.2.2 rfl⟩

theorem vLoopFuel_grows (yMax : Int) :
    ∀ (fuel : Nat) (bs : List Box), List.Forall₂ vGrows bs (vLoopFuel yMax fuel bs) := by
  intro fuel
  induction fuel with
  | zero => intro bs; exact List.forall₂_same.2 fun b _ => vGrows_refl b
  | succ n ih =>
    intro bs
    show List.Forall₂ vGrows bs
      (if (vSweep yMax bs).2 then vLoopFuel yMax n (vSweep yMax bs).1 else (vSweep yMax bs).1)
    by_cases h2 : (vSweep yMax bs).2 = true
    · rw [if_pos h2]
      exact forall₂_vGrows_trans (vSweep_spec yMax bs).1 (ih _)
    · rw [if_neg h2]
      exact (vSweep_spec yMax bs).1

theorem vLoopFuel_fix (yMax : Int) :
    ∀ (fuel : Nat) (bs : List Box), vMeasure yMax bs < fuel →
      vSweep yMax (vLoopFuel yMax fuel bs) = (vLoopFuel yMax fuel bs, false) := by
  intro fuel
  induction fuel with
  | zero => intro bs h; omega
  | succ n ih =>
    intro bs hlt
    show vSweep yMax
        (if (vSweep yMax bs).2 then vLoopFuel yMax n (vSweep yMax bs).1 else (vSweep yMax bs).1) =
      ((if (vSweep yMax bs).2 then vLoopFuel yMax n (vSweep yMax bs).1 else (vSweep yMax bs).1),
        false)
    by_cases h2 : (vSweep yMax bs).2 = true
    · rw [if_pos h2]
      have hdec := (vSweep_spec yMax bs).2.2.2 h2
      exact ih _ (by omega)
    · rw [if_neg h2]
      have h2f : (vSweep yMax bs).2 = false := by
        cases h : (vSweep yMax bs).2
        · rfl
        · exact absurd h h2
      have h1 := (vSweep_spec yMax bs).2.2.1 h2f
      rw [h1]
      have hpair : vSweep yMax bs = ((vSweep yMax bs).1, (vSweep yMax bs).2) := rfl
      rw [hpair, h1, h2f]

theorem vSweep_vLoop (yMax : Int) (bs : List Box) :
    vSweep yMax (vLoop yMax bs) = (vLoop yMax bs, false) :=
  vLoopFuel_fix yMax _ bs (Nat.lt_succ_self _)

theorem vLoop_grows (yMax : Int) (bs : List Box) :
    List.Forall₂ vGrows bs (vLoop yMax bs) :=
  vLoopFuel_grows yMax _ bs

theorem vLoop_eq_of_fix (yMax : Int) (bs : List Box)
    (h : vSweep yMax bs = (bs, false)) : vLoop yMax bs = bs := by
  show (if (vSweep yMax bs).2 then vLoopFuel yMax (vMeasure yMax bs) (vSweep yMax bs).1
    else (vSweep yMax bs).1) = bs
  rw [h]
  simp

theorem vStep_of_noGrow (yMax : Int) (bs : List Box) (i : Nat)
    (h : noGrowV yMax bs i) : vStep yMax bs i = (bs, false) := by
  rcases vStep_cases yMax bs i with ⟨heq, _⟩ | ⟨b, hget, hf, ho, hcan, heq⟩
  · exact heq
  · rcases h b hget with hfr | hov | hbound
    · rw [hfr] at hf; cases hf
    · rw [hov] at ho; cases ho
    · omega

theorem vStep_false_iff (yMax : Int) (bs : List Box) (i : Nat) :
    (vStep yMax bs i).2 = false ↔ noGrowV yMax bs i := by
  constructor
  · intro hfalse
    rcases vStep_cases yMax bs i with ⟨_, hng⟩ | ⟨b, _, _, _, _, heq⟩
    · exact hng
    · rw [heq] at hfalse; cases hfalse
  · intro h
    rw [vStep_of_noGrow yMax bs i h]

theorem vSweepAux_all_false (yMax : Int) :
    ∀ (k i : Nat) (bs : List Box), (vSweepAux yMax k i bs false).2 = false →
      ∀ t, t < k → (vStep yMax bs (i + t)).2 = false := by
  intro k
  induction k with
  | zero => intro i bs h t ht; omega
  | succ n ih =>
    intro i bs h t ht
    have hunf : vSweepAux yMax (n + 1) i bs false =
        vSweepAux yMax n (i + 1) (vStep yMax bs i).1 (false || (vStep yMax bs i).2) := rfl
    have hr2 : (vStep yMax bs i).2 = false := by
      rcases Bool.eq_false_or_eq_true ((vStep yMax bs i).2) with hr | hr
      · exfalso
        rw [hunf, hr] at h
        have htr := vSweepAux_true yMax n (i + 1) (vStep yMax bs i).1
        have hcoll : (vSweepAux yMax n (i + 1) (vStep yMax bs i).1 (false || true)).2 =
            (vSweepAux yMax n (i + 1) (vStep yMax bs i).1 true).2 := rfl
        rw [hcoll, htr] at h
        cases h
      · exact hr
    have heq1 := (vStep_measure yMax bs i).2.2 hr2
    cases t with
    | zero =>
      rw [Nat.add_zero]
      exact hr2
    | succ s =>
      rw [hunf, hr2, heq1] at h
      have hih := ih (i + 1) bs h s (by omega)
      rw [show i + (s + 1) = (i + 1) + s from by omega]
      exact hih

theorem vSweep_all_noGrow (yMax : Int) (bs : List Box)
    (h : vSweep yMax bs = (bs, false)) : ∀ i, noGrowV yMax bs i := by
  intro i
  by_cases hi : i < bs.length
  · have hfalse : (vSweepAux yMax bs.length 0 bs false).2 = false := by
      show (vSweep yMax bs).2 = false
      rw [h]
    have := vSweepAux_all_false yMax bs.length 0 bs hfalse i hi
    rw [Nat.zero_add] at this
    exact (vStep_false_iff yMax bs i).1 this
  · intro b hb
    rw [List.get?_eq_none.2 (by omega)] at hb
    cases hb

theorem vSweep_of_noGrow (yMax : Int) (bs : List Box)
    (h : ∀ i, noGrowV yMax bs i) : vSweep yMax bs = (bs, false) := by
  have haux : ∀ (k i : Nat), vSweepAux yMax k i bs false = (bs, false) := by
    intro k
    induction k with
    | zero => intro i; rfl
    | succ n ih =>
      intro i
      have hstep := vStep_of_noGrow yMax bs i (h i)
      have hunf : vSweepAux yMax (n + 1) i bs false =
          vSweepAux yMax n (i + 1) (vStep yMax bs i).1 (false || (vStep yMax bs i).2) := rfl
      rw [hunf, hstep]
      exact ih (i + 1)
  exact haux bs.length 0

theorem vStep_bounds (xMax yMax : Int) (bs : List Box) (i : Nat)
    (h : ∀ b ∈ bs, inBounds xMax yMax b) :
    ∀ b ∈ (vStep yMax bs i).1, inBounds xMax yMax b := by
  rcases vStep_cases yMax bs i with ⟨heq, _⟩ | ⟨b, hget, _, _, _, heq⟩
  · rw [heq]; exact h
  · rw [heq]
    intro b' hb'
    rcases List.mem_or_eq_of_mem_set hb' with hmem | heqb
    · exact h _ hmem
    · subst heqb
      obtain ⟨h1, h2, h3, h4⟩ := h b (List.get?_mem hget)
      exact ⟨h1, h2, by dsimp only; split <;> omega, by dsimp only; split <;> omega⟩

theorem vSweepAux_bounds (xMax yMax : Int) :
    ∀ (k i : Nat) (bs : List Box) (ch : Bool), (∀ b ∈ bs, inBounds xMax yMax b) →
      ∀ b ∈ (vSweepAux yMax k i bs ch).1, inBounds xMax yMax b := by
  intro k
  induction k with
  | zero => intro i bs ch h; exact h
  | succ n ih =>
    intro i bs ch h
    exact ih (i + 1) (vStep yMax bs i).1 (ch || (vStep yMax bs i).2)
      (vStep_bounds xMax yMax bs i h)

theorem vLoopFuel_bounds (xMax yMax : Int) :
    ∀ (fuel : Nat) (bs : List Box), (∀ b ∈ bs, inBounds xMax yMax b) →
      ∀ b ∈ vLoopFuel yMax fuel bs, inBounds xMax yMax b := by
  intro fuel
  induction fuel with
  | zero => intro bs h; exact h
  | succ n ih =>
    intro bs h
    show ∀ b ∈ (if (vSweep yMax bs).2 then vLoopFuel yMax n (vSweep yMax bs).1
      else (vSweep yMax bs).1), inBounds xMax yMax b
    by_cases h2 : (vSweep yMax bs).2 = true
    · rw [if_pos h2]
      exact ih _ (vSweepAux_bounds xMax yMax bs.length 0 bs false h)
    · rw [if_neg h2]
      exact vSweepAux_bounds xMax yMax bs.length 0 bs false h

theorem vLoop_bounds (xMax yMax : Int) (bs : List Box)
    (h : ∀ b ∈ bs, inBounds xMax yMax b) :
    ∀ b ∈ vLoop yMax bs, inBounds xMax yMax b :=
  vLoopFuel_bounds xMax yMax _ bs h

/-! ### Horizontal pass lemmas (mirror of the vertical pass) -/

theorem hGrows_refl (b : Box) : hGrows b b :=
  ⟨rfl, rfl, rfl, rfl, rfl, le_refl _, le_refl _, fun _ => rfl⟩

theorem hGrows_trans {a b c : Box} (h1 : hGrows a b) (h2 : hGrows b c) : hGrows a c := by
  refine ⟨h2.hy1.trans h1.hy1, h2.hy2.trans h1.hy2, h2.hlab.trans h1.hlab,
    h2.hid.trans h1.hid, h2.hpos.trans h1.hpos, le_trans h2.hx1 h1.hx1,
    le_trans h1.hx2 h2.hx2, ?_⟩
  intro hfr
  have hb : b = a := h1.hfro hfr
  have hfr2 : isFrozen b.label = true := by rw [h1.hlab]; exact hfr
  rw [h2.hfro hfr2, hb]

theorem forall₂_hGrows_trans {l1 l2 l3 : List Box} (h12 : List.Forall₂ hGrows l1 l2)
    (h23 : List.Forall₂ hGrows l2 l3) : List.Forall₂ hGrows l1 l3 :=
  forall₂_trans_of hGrows (fun _ _ _ ha hb => hGrows_trans ha hb) h12 h23

theorem hStep_cases (xMax : Int) (bs : List Box) (i : Nat) :
    (hStep xMax bs i = (bs, false) ∧ noGrowH xMax bs i) ∨
    (∃ b, bs.get? i = some b ∧ isFrozen b.label = false ∧
      overlapsOther bs i b = false ∧
      (0 < b.rect.x1 ∨ b.rect.x2 < xMax) ∧
      hStep xMax bs i =
        (bs.set i ⟨⟨if 0 < b.rect.x1 then b.rect.x1 - 1 else b.rect.x1, b.rect.y1,
            if b.rect.x2 < xMax then b.rect.x2 + 1 else b.rect.x2, b.rect.y2⟩,
          b.label, b.boxId, b.pos⟩, true)) := by
  cases hget : bs.get? i with
  | none =>
    left
    constructor
    · unfold hStep
      rw [hget]
    · intro b hb
      rw [hget] at hb
      cases hb
  | some b =>
    have hv : hStep xMax bs i =
        (if isFrozen b.label then (bs, false)
         else if overlapsOther bs i b then (bs, false)
         else if (if 0 < b.rect.x1 then b.rect.x1 - 1 else b.rect.x1) ≠ b.rect.x1 ∨
             (if b.rect.x2 < xMax then b.rect.x2 + 1 else b.rect.x2) ≠ b.rect.x2 then
           (bs.set i ⟨⟨if 0 < b.rect.x1 then b.rect.x1 - 1 else b.rect.x1, b.rect.y1,
               if b.rect.x2 < xMax then b.rect.x2 + 1 else b.rect.x2, b.rect.y2⟩,
             b.label, b.boxId, b.pos⟩, true)
         else (bs, false)) := by
      unfold hStep
      rw [hget]
    by_cases hf : isFrozen b.label = true
    · left
      rw [hv, if_pos hf]
      refine ⟨rfl, ?_⟩
      intro b' hb'
      rw [hget] at hb'
      injection hb' with hb'
      subst hb'
      exact Or.inl hf
    · have hf' : isFrozen b.label = false := by
        cases h : isFrozen b.label
        · rfl
        · exact absurd h hf
      by_cases ho : overlapsOther bs i b = true
      · left
        rw [hv, if_neg (by rw [hf']; exact Bool.false_ne_true)]
        rw [if_pos ho]
        refine ⟨rfl, ?_⟩
        intro b' hb'
        rw [hget] at hb'
        injection hb' with hb'
        subst hb'
        exact Or.inr (Or.inl ho)
      · have ho' : overlapsOther bs i b = false := by
          cases h : overlapsOther bs i b
          · rfl
          · exact absurd h ho
        by_cases hch : (if 0 < b.rect.x1 then b.rect.x1 - 1 else b.rect.x1) ≠ b.rect.x1 ∨
            (if b.rect.x2 < xMax then b.rect.x2 + 1 else b.rect.x2) ≠ b.rect.x2
        · right
          refine ⟨b, rfl, hf', ho', ?_, ?_⟩
          · by_cases h1 : 0 < b.rect.x1
            · exact Or.inl h1
            · by_cases h2 : b.rect.x2 < xMax
              · exact Or.inr h2
              · exfalso
                rcases hch with h | h
                · rw [if_neg h1] at h
                  exact h rfl
                · rw [if_neg h2] at h
                  exact h rfl
          · rw [hv, if_neg (by rw [hf']; exact Bool.false_ne_true)]
            rw [if_neg (by rw [ho']; exact Bool.false_ne_true)]
            rw [if_pos hch]
        · left
          rw [hv, if_neg (by rw [hf']; exact Bool.false_ne_true)]
          rw [if_neg (by rw [ho']; exact Bool.false_ne_true)]
          rw [if_neg hch]
          refine ⟨rfl, ?_⟩
          intro b' hb'
          rw [hget] at hb'
          injection hb' with hb'
          subst hb'
          right; right
          push_neg at hch
          obtain ⟨h1, h2⟩ := hch
          constructor
          · by_contra hcon
            rw [if_pos (by omega)] at h2
            omega
          · by_contra hcon
            rw [if_pos (by omega)] at h1
            omega

theorem hStep_grows (xMax : Int) (bs : List Box) (i : Nat) :
    List.Forall₂ hGrows bs (hStep xMax bs i).1 := by
  rcases hStep_cases xMax bs i with ⟨heq, _⟩ | ⟨b, hget, hf, _, _, heq⟩
  · rw [heq]
    exact List.forall₂_same.2 fun b _ => hGrows_refl b
  · rw [heq]
    refine forall₂_set_of_refl hGrows_refl bs i hget
      ⟨rfl, rfl, rfl, rfl, rfl, ?_, ?_, ?_⟩
    · dsimp only
      split <;> omega
    · dsimp only
      split <;> omega
    · intro hfr
      rw [hfr] at hf
      cases hf

theorem hMeasure_set (xMax : Int) :
    ∀ (bs : List Box) (i : Nat) (b b' : Box), bs.get? i = some b →
      hMeasure xMax (bs.set i b') + boxHMeasure xMax b =
        hMeasure xMax bs + boxHMeasure xMax b' := by
  intro bs
  induction bs with
  | nil => intro i b b' h; simp at h
  | cons x xs ih =>
    intro i b b' h
    cases i with
    | zero =>
      injection h with h
      subst h
      simp [hMeasure]
      omega
    | succ n =>
      have hrec := ih n b b' h
      simp only [List.set, hMeasure, List.map_cons, List.sum_cons] at hrec ⊢
      omega

theorem hStep_measure (xMax : Int) (bs : List Box) (i : Nat) :
    hMeasure xMax (hStep xMax bs i).1 ≤ hMeasure xMax bs ∧
    ((hStep xMax bs i).2 = true →
      hMeasure xMax (hStep xMax bs i).1 < hMeasure xMax bs) ∧
    ((hStep xMax bs i).2 = false → (hStep xMax bs i).1 = bs) := by
  rcases hStep_cases xMax bs i with ⟨heq, _⟩ | ⟨b, hget, _, _, hcan, heq⟩
  · rw [heq]
    exact ⟨le_refl _, fun hc => Bool.noConfusion hc, fun _ => rfl⟩
  · rw [heq]
    dsimp only
    have hm := hMeasure_set xMax bs i b
      ⟨⟨if 0 < b.rect.x1 then b.rect.x1 - 1 else b.rect.x1, b.rect.y1,
          if b.rect.x2 < xMax then b.rect.x2 + 1 else b.rect.x2, b.rect.y2⟩,
        b.label, b.boxId, b.pos⟩ hget
    have hlt : boxHMeasure xMax
        ⟨⟨if 0 < b.rect.x1 then b.rect.x1 - 1 else b.rect.x1, b.rect.y1,
            if b.rect.x2 < xMax then b.rect.x2 + 1 else b.rect.x2, b.rect.y2⟩,
          b.label, b.boxId, b.pos⟩ < boxHMeasure xMax b := by
      unfold boxHMeasure
      dsimp only
      rcases hcan with h | h
      · rw [if_pos h]
        split <;> omega
      · rw [if_pos h]
        split <;> omega
    exact ⟨by omega, fun _ => by omega, fun hfalse => Bool.noConfusion hfalse⟩

theorem hSweepAux_true (xMax : Int) :
    ∀ (k i : Nat) (bs : List Box), (hSweepAux xMax k i bs true).2 = true := by
  intro k
  induction k with
  | zero => intro i bs; rfl
  | succ n ih =>
    intro i bs
    simp only [hSweepAux, Bool.true_or]
    exact ih (i + 1) (hStep xMax bs i).1

theorem hSweepAux_spec (xMax : Int) :
    ∀ (k i : Nat) (bs : List Box) (ch : Bool),
      List.Forall₂ hGrows bs (hSweepAux xMax k i bs ch).1 ∧
      hMeasure xMax (hSweepAux xMax k i bs ch).1 ≤ hMeasure xMax bs ∧
      ((hSweepAux xMax k i bs ch).2 = false →
        (hSweepAux xMax k i bs ch).1 = bs ∧ ch = false) ∧
      (ch = false → (hSweepAux xMax k i bs ch).2 = true →
        hMeasure xMax (hSweepAux xMax k i bs ch).1 < hMeasure xMax bs) := by
  intro k
  induction k with
  | zero =>
    intro i bs ch
    refine ⟨List.forall₂_same.2 fun b _ => hGrows_refl b, le_refl _,
      fun h => ⟨rfl, h⟩, ?_⟩
    intro hch hres
    rw [hch] at hres
    cases hres
  | succ n ih =>
    intro i bs ch
    have hstep := hStep_measure xMax bs i
    have hgrow := hStep_grows xMax bs i
    have hrec := ih (i + 1) (hStep xMax bs i).1 (ch || (hStep xMax bs i).2)
    have hunf : hSweepAux xMax (n + 1) i bs ch =
        hSweepAux xMax n (i + 1) (hStep xMax bs i).1 (ch || (hStep xMax bs i).2) := rfl
    rw [hunf]
    refine ⟨forall₂_hGrows_trans hgrow hrec.1,
      le_trans hrec.2.1 hstep.1, ?_, ?_⟩
    · intro hfalse
      obtain ⟨heq, hor⟩ := hrec.2.2.1 hfalse
      have hch : ch = false := by
        cases ch
        · rfl
        · rw [Bool.true_or] at hor; cases hor
      have hr2 : (hStep xMax bs i).2 = false := by
        cases hsnd : (hStep xMax bs i).2
        · rfl
        · rw [hch, hsnd, Bool.false_or] at hor; cases hor
      rw [heq, hstep.2.2 hr2]
      exact ⟨rfl, hch⟩
    · intro hch htrue
      subst hch
      rcases Bool.eq_false_or_eq_true ((hStep xMax bs i).2) with hr2 | hr2
      · exact lt_of_le_of_lt hrec.2.1 (hstep.2.1 hr2)
      · have heq1 := hstep.2.2 hr2
        rw [hr2, heq1] at htrue ⊢
        exact (ih (i + 1) bs false).2.2.2 rfl htrue

theorem hSweep_spec (xMax : Int) (bs : List Box) :
    List.Forall₂ hGrows bs (hSweep xMax bs).1 ∧
    hMeasure xMax (hSweep xMax bs).1 ≤ hMeasure xMax bs ∧
    ((hSweep xMax bs).2 = false → (hSweep xMax bs).1 = bs) ∧
    ((hSweep xMax bs).2 = true →
      hMeasure xMax (hSweep xMax bs).1 < hMeasure xMax bs) := by
  have h := hSweepAux_spec xMax bs.length 0 bs false
  exact ⟨h.1, h.2.1, fun hf => (h.2.2.1 hf).1, h.2.2.2 rfl⟩

theorem hLoopFuel_grows (xMax : Int) :
    ∀ (fuel : Nat) (bs : List Box), List.Forall₂ hGrows bs (hLoopFuel xMax fuel bs) := by
  intro fuel
  induction fuel with
  | zero => intro bs; exact List.forall₂_same.2 fun b _ => hGrows_refl b
  | succ n ih =>
    intro bs
    show List.Forall₂ hGrows bs
      (if (hSweep xMax bs).2 then hLoopFuel xMax n (hSweep xMax bs).1 else (hSweep xMax bs).1)
    by_cases h2 : (hSweep xMax bs).2 = true
    · rw [if_pos h2]
      exact forall₂_hGrows_trans (hSweep_spec xMax bs).1 (ih _)
    · rw [if_neg h2]
      exact (hSweep_spec xMax bs).1

theorem hLoopFuel_fix (xMax : Int) :
    ∀ (fuel : Nat) (bs : List Box), hMeasure xMax bs < fuel →
      hSweep xMax (hLoopFuel xMax fuel bs) = (hLoopFuel xMax fuel bs, false) := by
  intro fuel
  induction fuel with
  | zero => intro bs h; omega
  | succ n ih =>
    intro bs hlt
    show hSweep xMax
        (if (hSweep xMax bs).2 then hLoopFuel xMax n (hSweep xMax bs).1 else (hSweep xMax bs).1) =
      ((if (hSweep xMax bs).2 then hLoopFuel xMax n (hSweep xMax bs).1 else (hSweep xMax bs).1),
        false)
    by_cases h2 : (hSweep xMax bs).2 = true
    · rw [if_pos h2]
      have hdec := (hSweep_spec xMax bs).2.2.2 h2
      exact ih _ (by omega)
    · rw [if_neg h2]
      have h2f : (hSweep xMax bs).2 = false := by
        cases h : (hSweep xMax bs).2
        · rfl
        · exact absurd h h2
      have h1 := (hSweep_spec xMax bs).2.2.1 h2f
      rw [h1]
      have hpair : hSweep xMax bs = ((hSweep xMax bs).1, (hSweep xMax bs).2) := rfl
      rw [hpair, h1, h2f]

theorem hSweep_hLoop (xMax : Int) (bs : List Box) :
    hSweep xMax (hLoop xMax bs) = (hLoop xMax bs, false) :=
  hLoopFuel_fix xMax _ bs (Nat.lt_succ_self _)

theorem hLoop_grows (xMax : Int) (bs : List Box) :
    List.Forall₂ hGrows bs (hLoop xMax bs) :=
  hLoopFuel_grows xMax _ bs

theorem hLoop_eq_of_fix (xMax : Int) (bs : List Box)
    (h : hSweep xMax bs = (bs, false)) : hLoop xMax bs = bs := by
  show (if (hSweep xMax bs).2 then hLoopFuel xMax (hMeasure xMax bs) (hSweep xMax bs).1
    else (hSweep xMax bs).1) = bs
  rw [h]
  simp

theorem hStep_of_noGrow (xMax : Int) (bs : List Box) (i : Nat)
    (h : noGrowH xMax bs i) : hStep xMax bs i = (bs, false) := by
  rcases hStep_cases xMax bs i with ⟨heq, _⟩ | ⟨b, hget, hf, ho, hcan, heq⟩
  · exact heq
  · rcases h b hget with hfr | hov | hbound
    · rw [hfr] at hf; cases hf
    · rw [hov] at ho; cases ho
    · omega

theorem hStep_false_iff (xMax : Int) (bs : List Box) (i : Nat) :
    (hStep xMax bs i).2 = false ↔ noGrowH xMax bs i := by
  constructor
  · intro hfalse
    rcases hStep_cases xMax bs i with ⟨_, hng⟩ | ⟨b, _, _, _, _, heq⟩
    · exact hng
    · rw [heq] at hfalse; cases hfalse
  · intro h
    rw [hStep_of_noGrow xMax bs i h]

theorem hSweepAux_all_false (xMax : Int) :
    ∀ (k i : Nat) (bs : List Box), (hSweepAux xMax k i bs false).2 = false →
      ∀ t, t < k → (hStep xMax bs (i + t)).2 = false := by
  intro k
  induction k with
  | zero => intro i bs h t ht; omega
  | succ n ih =>
    intro i bs h t ht
    have hunf : hSweepAux xMax (n + 1) i bs false =
        hSweepAux xMax n (i + 1) (hStep xMax bs i).1 (false || (hStep xMax bs i).2) := rfl
    have hr2 : (hStep xMax bs i).2 = false := by
      rcases Bool.eq_false_or_eq_true ((hStep xMax bs i).2) with hr | hr
      · exfalso
        rw [hunf, hr] at h
        have htr := hSweepAux_true xMax n (i + 1) (hStep xMax bs i).1
        have hcoll : (hSweepAux xMax n (i + 1) (hStep xMax bs i).1 (false || true)).2 =
            (hSweepAux xMax n (i + 1) (hStep xMax bs i).1 true).2 := rfl
        rw [hcoll, htr] at h
        cases h
      · exact hr
    have heq1 := (hStep_measure xMax bs i).2.2 hr2
    cases t with
    | zero =>
      rw [Nat.add_zero]
      exact hr2
    | succ s =>
      rw [hunf, hr2, heq1] at h
      have hih := ih (i + 1) bs h s (by omega)
      rw [show i + (s + 1) = (i + 1) + s from by omega]
      exact hih

theorem hSweep_all_noGrow (xMax : Int) (bs : List Box)
    (h : hSweep xMax bs = (bs, false)) : ∀ i, noGrowH xMax bs i := by
  intro i
  by_cases hi : i < bs.length
  · have hfalse : (hSweepAux xMax bs.length 0 bs false).2 = false := by
      show (hSweep xMax bs).2 = false
      rw [h]
    have := hSweepAux_all_false xMax bs.length 0 bs hfalse i hi
    rw [Nat.zero_add] at this
    exact (hStep_false_iff xMax bs i).1 this
  · intro b hb
    rw [List.get?_eq_none.2 (by omega)] at hb
    cases hb

theorem hSweep_of_noGrow (xMax : Int) (bs : List Box)
    (h : ∀ i, noGrowH xMax bs i) : hSweep xMax bs = (bs, false) := by
  have haux : ∀ (k i : Nat), hSweepAux xMax k i bs false = (bs, false) := by
    intro k
    induction k with
    | zero => intro i; rfl
    | succ n ih =>
      intro i
      have hstep := hStep_of_noGrow xMax bs i (h i)
      have hunf : hSweepAux xMax (n + 1) i bs false =
          hSweepAux xMax n (i + 1) (hStep xMax bs i).1 (false || (hStep xMax bs i).2) := rfl
      rw [hunf, hstep]
      exact ih (i + 1)
  exact haux bs.length 0

theorem hStep_bounds (xMax yMax : Int) (bs : List Box) (i : Nat)
    (h : ∀ b ∈ bs, inBounds xMax yMax b) :
    ∀ b ∈ (hStep xMax bs i).1, inBounds xMax yMax b := by
  rcases hStep_cases xMax bs i with ⟨heq, _⟩ | ⟨b, hget, _, _, _, heq⟩
  · rw [heq]; exact h
  · rw [heq]
    intro b' hb'
    rcases List.mem_or_eq_of_mem_set hb' with hmem | heqb
    · exact h _ hmem
    · subst heqb
      obtain ⟨h1, h2, h3, h4⟩ := h b (List.get?_mem hget)
      exact ⟨by dsimp only; split <;> omega, by dsimp only; split <;> omega, h3, h4⟩

theorem hSweepAux_bounds (xMax yMax : Int) :
    ∀ (k i : Nat) (bs : List Box) (ch : Bool), (∀ b ∈ bs, inBounds xMax yMax b) →
      ∀ b ∈ (hSweepAux xMax k i bs ch).1, inBounds xMax yMax b := by
  intro k
  induction k with
  | zero => intro i bs ch h; exact h
  | succ n ih =>
    intro i bs ch h
    exact ih (i + 1) (hStep xMax bs i).1 (ch || (hStep xMax bs i).2)
      (hStep_bounds xMax yMax bs i h)

theorem hLoopFuel_bounds (xMax yMax : Int) :
    ∀ (fuel : Nat) (bs : List Box), (∀ b ∈ bs, inBounds xMax yMax b) →
      ∀ b ∈ hLoopFuel xMax fuel bs, inBounds xMax yMax b := by
  intro fuel
  induction fuel with
  | zero => intro bs h; exact h
  | succ n ih =>
    intro bs h
    show ∀ b ∈ (if (hSweep xMax bs).2 then hLoopFuel xMax n (hSweep xMax bs).1
      else (hSweep xMax bs).1), inBounds xMax yMax b
    by_cases h2 : (hSweep xMax bs).2 = true
    · rw [if_pos h2]
      exact ih _ (hSweepAux_bounds xMax yMax bs.length 0 bs false h)
    · rw [if_neg h2]
      exact hSweepAux_bounds xMax yMax bs.length 0 bs false h

theorem hLoop_bounds (xMax yMax : Int) (bs : List Box)
    (h : ∀ b ∈ bs, inBounds xMax yMax b) :
    ∀ b ∈ hLoop xMax bs, inBounds xMax yMax b :=
  hLoopFuel_bounds xMax yMax _ bs h

/-! ### Merge-step lemmas and overlap monotonicity -/

theorem get?_zipWith_inv {α β γ : Type} (f : α → β → γ) :
    ∀ (l1 : List α) (l2 : List β) (i : Nat) (c : γ),
      (List.zipWith f l1 l2).get? i = some c →
      ∃ a b, l1.get? i = some a ∧ l2.get? i = some b ∧ c = f a b := by
  intro l1
  induction l1 with
  | nil => intro l2 i c h; simp at h
  | cons x xs ih =>
    intro l2 i c h
    cases l2 with
    | nil => simp at h
    | cons y ys =>
      cases i with
      | zero =>
        injection h with h
        exact ⟨x, y, rfl, rfl, h.symm⟩
      | succ n => exact ih ys n c h

theorem overlapsOther_true_iff (bs : List Box) (i : Nat) (b : Box) :
    overlapsOther bs i b = true ↔
      ∃ j b2, j ≠ i ∧ bs.get? j = some b2 ∧ rectOverlap b.rect b2.rect = true := by
  unfold overlapsOther
  rw [List.any_eq_true]
  constructor
  · rintro ⟨j, _, hcond⟩
    rw [Bool.and_eq_true] at hcond
    obtain ⟨hne, hmatch⟩ := hcond
    have hne2 : i ≠ j := by simpa using hne
    cases hget : bs.get? j with
    | none =>
      rw [hget] at hmatch
      cases hmatch
    | some b2 =>
      rw [hget] at hmatch
      exact ⟨j, b2, fun h => hne2 h.symm, hget, hmatch⟩
  · rintro ⟨j, b2, hne, hget, hov⟩
    have hj : j < bs.length := by
      by_contra hcon
      rw [List.get?_eq_none.2 (by omega)] at hget
      cases hget
    refine ⟨j, List.mem_range.2 hj, ?_⟩
    rw [Bool.and_eq_true]
    have hne2 : ¬i = j := fun h => hne h.symm
    refine ⟨by simp [hne2], ?_⟩
    rw [hget]
    exact hov

theorem mergeBox_fields {b0 bv bh : Box} (hv : vGrows b0 bv) (hh : hGrows b0 bh) :
    (mergeBox bv bh).rect.x1 = bh.rect.x1 ∧ (mergeBox bv bh).rect.x2 = bh.rect.x2 ∧
    (mergeBox bv bh).rect.y1 = bv.rect.y1 ∧ (mergeBox bv bh).rect.y2 = bv.rect.y2 ∧
    (mergeBox bv bh).label = bv.label ∧ (mergeBox bv bh).boxId = bv.boxId ∧
    (mergeBox bv bh).pos = bv.pos := by
  unfold mergeBox
  by_cases hf : isFrozen bv.label = true
  · rw [if_pos hf]
    have hb0 : isFrozen b0.label = true := by rw [← hv.hlab]; exact hf
    have hv0 := hv.hfro hb0
    have hh0 := hh.hfro hb0
    rw [hv0, hh0]
    exact ⟨rfl, rfl, rfl, rfl, rfl, rfl, rfl⟩
  · rw [if_neg hf]
    exact ⟨rfl, rfl, rfl, rfl, rfl, rfl, rfl⟩

theorem vGrows_proper {b0 bv : Box} (h : vGrows b0 bv) (hb : properRect b0.rect) :
    properRect bv.rect := by
  constructor
  · rw [h.hx1, h.hx2]
    exact hb.1
  · exact le_trans h.hy1 (le_trans hb.2 h.hy2)

theorem hGrows_proper {b0 bh : Box} (h : hGrows b0 bh) (hb : properRect b0.rect) :
    properRect bh.rect := by
  constructor
  · exact le_trans h.hx1 (le_trans hb.1 h.hx2)
  · rw [h.hy1, h.hy2]
    exact hb.2

theorem subRect_merge_v {b0 bv bh : Box} (hv : vGrows b0 bv) (hh : hGrows b0 bh) :
    subRect bv.rect (mergeBox bv bh).rect := by
  obtain ⟨m1, m2, m3, m4, _, _, _⟩ := mergeBox_fields hv hh
  refine ⟨?_, ?_, m3.le, m4.ge⟩
  · rw [m1, hv.hx1]
    exact hh.hx1
  · rw [m2, hv.hx2]
    exact hh.hx2

theorem subRect_merge_h {b0 bv bh : Box} (hv : vGrows b0 bv) (hh : hGrows b0 bh) :
    subRect bh.rect (mergeBox bv bh).rect := by
  obtain ⟨m1, m2, m3, m4, _, _, _⟩ := mergeBox_fields hv hh
  refine ⟨m1.le, m2.ge, ?_, ?_⟩
  · rw [m3, hh.hy1]
    exact hv.hy1
  · rw [m4, hh.hy2]
    exact hv.hy2

theorem rectOverlap_mono {a b a2 b2 : Rect} (ha : properRect a) (hb : properRect b)
    (hsa : subRect a a2) (hsb : subRect b b2) (hov : rectOverlap a b = true) :
    rectOverlap a2 b2 = true := by
  unfold rectOverlap valueInRange at hov ⊢
  obtain ⟨ha1, ha2⟩ := ha
  obtain ⟨hb1, hb2⟩ := hb
  obtain ⟨s1, s2, s3, s4⟩ := hsa
  obtain ⟨t1, t2, t3, t4⟩ := hsb
  simp only [Bool.and_eq_true, Bool.or_eq_true, decide_eq_true_eq] at hov ⊢
  omega

theorem mergeBox_self (b : Box) : mergeBox b b = b := by
  unfold mergeBox
  split
  · rfl
  · rcases b with ⟨⟨q1, q2, q3, q4⟩, lab, idd, pp⟩
    rfl

theorem zipWith_mergeBox_self : ∀ (l : List Box), List.zipWith mergeBox l l = l := by
  intro l
  induction l with
  | nil => rfl
  | cons x xs ih =>
    show mergeBox x x :: List.zipWith mergeBox xs xs = x :: xs
    rw [mergeBox_self x, ih]

/-! ### The expander claims -/

/-- C1 (failing input): on the pair of proper, in-bounds, non-Picture/Figure
regions `[0,0,1,1]` and `[2,2,3,3]` with page bounding box `[0,0,6,6]`, the
Gap-Filling Expander returns two regions that both cover the whole page —
their rectangles overlap under the `rectOverlap` test, violating the claimed
no-overlap invariant. -/
theorem expander_overlap_failing_input :
    adjust_bounding_boxes_final
        [⟨⟨0, 0, 1, 1⟩, Label.Text, 0, 0⟩, ⟨⟨2, 2, 3, 3⟩, Label.Text, 1, 1⟩] 6 6 =
      [⟨⟨0, 0, 6, 6⟩, Label.Text, 0, 0⟩, ⟨⟨0, 0, 6, 6⟩, Label.Text, 1, 1⟩] ∧
    rectOverlap ⟨0, 0, 6, 6⟩ ⟨0, 0, 6, 6⟩ = true ∧
    isFrozen Label.Text = false := by
  decide

/-- C2: when every input region lies inside the page bounding box
`[0, 0, xMax, yMax]`, so does every region emitted by the Gap-Filling
Expander (growth is clipped at each page bound). -/
theorem expander_boundary_invariant (xMax yMax : Int) (bs : List Box)
    (hb : ∀ b ∈ bs, inBounds xMax yMax b) :
    ∀ b ∈ adjust_bounding_boxes_final bs xMax yMax, inBounds xMax yMax b := by
  intro b hmem
  obtain ⟨i, hget⟩ := List.mem_iff_get?.1 hmem
  have hvF := vLoop_grows yMax bs
  have hhF := hLoop_grows xMax bs
  unfold adjust_bounding_boxes_final at hget
  obtain ⟨bv, bh, hbv, hbh, rfl⟩ := get?_zipWith_inv mergeBox _ _ i b hget
  have hvb := vLoop_bounds xMax yMax bs hb bv (List.get?_mem hbv)
  have hhb := hLoop_bounds xMax yMax bs hb bh (List.get?_mem hbh)
  obtain ⟨b0, hb0, hgv⟩ := forall₂_get?_right hvF hbv
  obtain ⟨b0', hb0', hgh⟩ := forall₂_get?_right hhF hbh
  rw [hb0] at hb0'
  injection hb0' with hb0'
  subst hb0'
  obtain ⟨m1, m2, m3, m4, _, _, _⟩ := mergeBox_fields hgv hgh
  exact ⟨by rw [m1]; exact hhb.1, by rw [m2]; exact hhb.2.1,
    by rw [m3]; exact hvb.2.2.1, by rw [m4]; exact hvb.2.2.2⟩

/-- C2 witness: a concrete in-bounds page stays in bounds after expansion. -/
theorem expander_boundary_invariant_witness :
    inBounds 6 6 (⟨⟨0, 0, 6, 6⟩, Label.Text, 0, 0⟩ : Box) :=
  expander_boundary_invariant 6 6
    [⟨⟨0, 0, 1, 1⟩, Label.Text, 0, 0⟩, ⟨⟨2, 2, 3, 3⟩, Label.Text, 1, 1⟩]
    (by decide) ⟨⟨0, 0, 6, 6⟩, Label.Text, 0, 0⟩ (by decide)

/-- C7: both fixed-point loops of the Gap-Filling Expander terminate: the
sweep applied to each loop's result reports no change (the loop's exit
condition), and any sweep that does report a change strictly decreases the
corresponding bounded growth measure, which is the termination argument. -/
theorem expander_termination (xMax yMax : Int) (bs : List Box) :
    vSweep yMax (vLoop yMax bs) = (vLoop yMax bs, false) ∧
    hSweep xMax (hLoop xMax bs) = (hLoop xMax bs, false) ∧
    ((vSweep yMax bs).2 = true →
      vMeasure yMax (vSweep yMax bs).1 < vMeasure yMax bs) ∧
    ((hSweep xMax bs).2 = true →
      hMeasure xMax (hSweep xMax bs).1 < hMeasure xMax bs) :=
  ⟨vSweep_vLoop yMax bs, hSweep_hLoop xMax bs,
   (vSweep_spec yMax bs).2.2.2, (hSweep_spec xMax bs).2.2.2⟩

/-- C7 witness: on a concrete changing page, both sweeps strictly decrease
their measures. -/
theorem expander_termination_witness :
    vMeasure 4 (vSweep 4 [⟨⟨1, 1, 2, 2⟩, Label.Text, 0, 0⟩]).1 <
      vMeasure 4 [⟨⟨1, 1, 2, 2⟩, Label.Text, 0, 0⟩] ∧
    hMeasure 4 (hSweep 4 [⟨⟨1, 1, 2, 2⟩, Label.Text, 0, 0⟩]).1 <
      hMeasure 4 [⟨⟨1, 1, 2, 2⟩, Label.Text, 0, 0⟩] :=
  ⟨(expander_termination 4 4 [⟨⟨1, 1, 2, 2⟩, Label.Text, 0, 0⟩]).2.2.1 (by decide),
   (expander_termination 4 4 [⟨⟨1, 1, 2, 2⟩, Label.Text, 0, 0⟩]).2.2.2 (by decide)⟩

/-- C10: the Gap-Filling Expander preserves list length and, at every index,
the label, box id and order position; Picture/Figure regions are returned
entirely unchanged. -/
theorem expander_frame (xMax yMax : Int) (bs : List Box) :
    (adjust_bounding_boxes_final bs xMax yMax).length = bs.length ∧
    ∀ i b b', bs.get? i = some b →
      (adjust_bounding_boxes_final bs xMax yMax).get? i = some b' →
      b'.label = b.label ∧ b'.boxId = b.boxId ∧ b'.pos = b.pos ∧
      ((b.label = Label.Picture ∨ b.label = Label.Figure) → b' = b) := by
  have hvF := vLoop_grows yMax bs
  have hhF := hLoop_grows xMax bs
  have hlenv := List.Forall₂.length_eq hvF
  have hlenh := List.Forall₂.length_eq hhF
  constructor
  · unfold adjust_bounding_boxes_final
    rw [List.length_zipWith, ← hlenv, ← hlenh, min_self]
  · intro i b b' hget hget'
    obtain ⟨bv, hbv, hgv⟩ := forall₂_get?_left hvF hget
    obtain ⟨bh, hbh, hgh⟩ := forall₂_get?_left hhF hget
    have hz := get?_zipWith mergeBox _ _ i bv bh hbv hbh
    unfold adjust_bounding_boxes_final at hget'
    rw [hz] at hget'
    injection hget' with hget'
    subst hget'
    obtain ⟨_, _, _, _, m5, m6, m7⟩ := mergeBox_fields hgv hgh
    refine ⟨by rw [m5, hgv.hlab], by rw [m6, hgv.hid], by rw [m7, hgv.hpos], ?_⟩
    intro hpic
    have hfr : isFrozen b.label = true := by
      rcases hpic with h | h <;> rw [h] <;> decide
    have hveq := hgv.hfro hfr
    have hheq := hgh.hfro hfr
    rw [hveq, hheq]
    exact mergeBox_self b

/-- C10 witness: a Picture region passes through the expander unchanged. -/
theorem expander_frame_witness :
    (⟨⟨1, 1, 2, 2⟩, Label.Picture, 5, 7⟩ : Box).label =
        (⟨⟨1, 1, 2, 2⟩, Label.Picture, 5, 7⟩ : Box).label ∧
    (⟨⟨1, 1, 2, 2⟩, Label.Picture, 5, 7⟩ : Box).boxId =
        (⟨⟨1, 1, 2, 2⟩, Label.Picture, 5, 7⟩ : Box).boxId ∧
    (⟨⟨1, 1, 2, 2⟩, Label.Picture, 5, 7⟩ : Box).pos =
        (⟨⟨1, 1, 2, 2⟩, Label.Picture, 5, 7⟩ : Box).pos ∧
    (((⟨⟨1, 1, 2, 2⟩, Label.Picture, 5, 7⟩ : Box).label = Label.Picture ∨
        (⟨⟨1, 1, 2, 2⟩, Label.Picture, 5, 7⟩ : Box).label = Label.Figure) →
      (⟨⟨1, 1, 2, 2⟩, Label.Picture, 5, 7⟩ : Box) =
        (⟨⟨1, 1, 2, 2⟩, Label.Picture, 5, 7⟩ : Box)) :=
  (expander_frame 4 4 [⟨⟨1, 1, 2, 2⟩, Label.Picture, 5, 7⟩]).2 0
    ⟨⟨1, 1, 2, 2⟩, Label.Picture, 5, 7⟩ ⟨⟨1, 1, 2, 2⟩, Label.Picture, 5, 7⟩
    (by decide) (by decide)

/-- C6: the Gap-Filling Expander is idempotent on region lists satisfying the
data-model rectangle invariant (`x1 ≤ x2`, `y1 ≤ y2`): a second run returns
its input unchanged. -/
theorem expander_idempotent (xMax yMax : Int) (bs : List Box)
    (hp : ∀ b ∈ bs, properRect b.rect) :
    adjust_bounding_boxes_final (adjust_bounding_boxes_final bs xMax yMax) xMax yMax =
      adjust_bounding_boxes_final bs xMax yMax := by
  have hvF := vLoop_grows yMax bs
  have hhF := hLoop_grows xMax bs
  have hnoGv := vSweep_all_noGrow yMax (vLoop yMax bs) (vSweep_vLoop yMax bs)
  have hnoGh := hSweep_all_noGrow xMax (hLoop xMax bs) (hSweep_hLoop xMax bs)
  have hM : ∀ i m, (adjust_bounding_boxes_final bs xMax yMax).get? i = some m →
      ∃ b0 bv bh, bs.get? i = some b0 ∧ (vLoop yMax bs).get? i = some bv ∧
        (hLoop xMax bs).get? i = some bh ∧ vGrows b0 bv ∧ hGrows b0 bh ∧
        m = mergeBox bv bh := by
    intro i m hm
    unfold adjust_bounding_boxes_final at hm
    obtain ⟨bv, bh, hbv, hbh, rfl⟩ := get?_zipWith_inv mergeBox _ _ i m hm
    obtain ⟨b0, hb0, hgv⟩ := forall₂_get?_right hvF hbv
    obtain ⟨b0', hb0', hgh⟩ := forall₂_get?_right hhF hbh
    rw [hb0] at hb0'
    injection hb0' with hb0'
    subst hb0'
    exact ⟨b0, bv, bh, hb0, hbv, hbh, hgv, hgh, rfl⟩
  have hnoV : ∀ i, noGrowV yMax (adjust_bounding_boxes_final bs xMax yMax) i := by
    intro i m hm
    obtain ⟨b0, bv, bh, hb0, hbv, hbh, hgv, hgh, rfl⟩ := hM i m hm
    obtain ⟨m1, m2, m3, m4, m5, _, _⟩ := mergeBox_fields hgv hgh
    rcases hnoGv i bv hbv with hf | hov | hbound
    · left
      rw [m5]
      exact hf
    · right; left
      obtain ⟨j, c2, hne, hget2, hov2⟩ := (overlapsOther_true_iff _ i bv).1 hov
      obtain ⟨b02, hb02, hgv2⟩ := forall₂_get?_right hvF hget2
      obtain ⟨bh2, hbh2, hgh2⟩ := forall₂_get?_left hhF hb02
      have hMj : (adjust_bounding_boxes_final bs xMax yMax).get? j =
          some (mergeBox c2 bh2) := by
        unfold adjust_bounding_boxes_final
        exact get?_zipWith mergeBox _ _ j c2 bh2 hget2 hbh2
      refine (overlapsOther_true_iff _ i (mergeBox bv bh)).2
        ⟨j, mergeBox c2 bh2, hne, hMj, ?_⟩
      exact rectOverlap_mono (vGrows_proper hgv (hp b0 (List.get?_mem hb0)))
        (vGrows_proper hgv2 (hp b02 (List.get?_mem hb02)))
        (subRect_merge_v hgv hgh) (subRect_merge_v hgv2 hgh2) hov2
    · right; right
      rw [m4, m3]
      exact hbound
  have hnoH : ∀ i, noGrowH xMax (adjust_bounding_boxes_final bs xMax yMax) i := by
    intro i m hm
    obtain ⟨b0, bv, bh, hb0, hbv, hbh, hgv, hgh, rfl⟩ := hM i m hm
    obtain ⟨m1, m2, m3, m4, m5, _, _⟩ := mergeBox_fields hgv hgh
    rcases hnoGh i bh hbh with hf | hov | hbound
    · left
      rw [m5, hgv.hlab, ← hgh.hlab]
      exact hf
    · right; left
      obtain ⟨j, c2, hne, hget2, hov2⟩ := (overlapsOther_true_iff _ i bh).1 hov
      obtain ⟨b02, hb02, hgh2⟩ := forall₂_get?_right hhF hget2
      obtain ⟨bv2, hbv2, hgv2⟩ := forall₂_get?_left hvF hb02
      have hMj : (adjust_bounding_boxes_final bs xMax yMax).get? j =
          some (mergeBox bv2 c2) := by
        unfold adjust_bounding_boxes_final
        exact get?_zipWith mergeBox _ _ j bv2 c2 hbv2 hget2
      refine (overlapsOther_true_iff _ i (mergeBox bv bh)).2
        ⟨j, mergeBox bv2 c2, hne, hMj, ?_⟩
      exact rectOverlap_mono (hGrows_proper hgh (hp b0 (List.get?_mem hb0)))
        (hGrows_proper hgh2 (hp b02 (List.get?_mem hb02)))
        (subRect_merge_h hgv hgh) (subRect_merge_h hgv2 hgh2) hov2
    · right; right
      rw [m2, m1]
      exact hbound
  have hvM := vSweep_of_noGrow yMax _ hnoV
  have hhM := hSweep_of_noGrow xMax _ hnoH
  have houter : adjust_bounding_boxes_final
      (adjust_bounding_boxes_final bs xMax yMax) xMax yMax =
      List.zipWith mergeBox
        (vLoop yMax (adjust_bounding_boxes_final bs xMax yMax))
        (hLoop xMax (adjust_bounding_boxes_final bs xMax yMax)) := rfl
  rw [houter, vLoop_eq_of_fix yMax _ hvM, hLoop_eq_of_fix xMax _ hhM]
  exact zipWith_mergeBox_self _

/-- C6 witness: idempotence at a concrete proper region list. -/
theorem expander_idempotent_witness :
    adjust_bounding_boxes_final
        (adjust_bounding_boxes_final [⟨⟨1, 1, 2, 2⟩, Label.Text, 0, 0⟩] 4 4) 4 4 =
      adjust_bounding_boxes_final [⟨⟨1, 1, 2, 2⟩, Label.Text, 0, 0⟩] 4 4 :=
  expander_idempotent 4 4 [⟨⟨1, 1, 2, 2⟩, Label.Text, 0, 0⟩] (by decide)

end AcutisLayout
